import Mathlib

/-!
Verification of the markdown-editor utility logic (src/script.js).

The relevant JavaScript functions are shallowly embedded as Lean
definitions: strings become lists of characters, JavaScript numbers
become exact rationals where the claims call for exact arithmetic,
`null`/error results become `Option`, and the browser timer queue is
modelled by processing a time-ordered list of events.
-/

/-! ## Calculator (`calculate`, script.js:1410-1432)

The calculator state keeps `previousValue` and `currentValue`; on
`calculate()` both are parsed as numbers and combined by the stored
operator.  A division whose divisor is zero yields the string
`Error`, modelled here as `none`. -/

inductive CalcOp where
  | add
  | subtract
  | multiply
  | divide
deriving DecidableEq

/-- Model of `calculate` from script.js: the new `currentValue`,
with `none` standing for the string `Error`. -/
def calculate (op : CalcOp) (prev current : ℚ) : Option ℚ :=
  match op with
  | .add => some (prev + current)
  | .subtract => some (prev - current)
  | .multiply => some (prev * current)
  | .divide => if current ≠ 0 then some (prev / current) else none

/-- Claim C9: with operator `divide`, a current value equal to 0 produces
the error value instead of a division, and any nonzero divisor produces
the quotient of the previous and current values. -/
theorem calculate_divide_spec (prev current : ℚ) :
    (current = 0 → calculate CalcOp.divide prev current = none) ∧
    (current ≠ 0 → calculate CalcOp.divide prev current = some (prev / current)) := by
  constructor
  · intro h
    simp [calculate, h]
  · intro h
    simp [calculate, h]

/-- Witness for claim C9 at a concrete division by zero and a concrete
nonzero division. -/
theorem calculate_divide_spec_witness :
    calculate CalcOp.divide 1 0 = none ∧ calculate CalcOp.divide 6 2 = some 3 := by
  refine ⟨(calculate_divide_spec 1 0).1 rfl, ?_⟩
  have h := (calculate_divide_spec 6 2).2 (by norm_num)
  rw [h]
  norm_num

/-! ## Unit converter (`conversionRates`, `convertTemperature`, `convert`,
script.js:2655-2750)

Length and weight conversions divide by the source rate and multiply by
the target rate; temperature goes through Celsius.  Following the claim,
the arithmetic is read as exact rational arithmetic on the formulas. -/

inductive LengthUnit where
  | m
  | km
  | cm
  | mm
  | ft
  | inch
deriving DecidableEq

inductive WeightUnit where
  | kg
  | g
  | mg
  | lb
  | oz
deriving DecidableEq

inductive TempUnit where
  | celsius
  | fahrenheit
  | kelvin
deriving DecidableEq

/-- The `length` table of `conversionRates`. -/
def lengthRate : LengthUnit → ℚ
  | .m => 1
  | .km => 0.001
  | .cm => 100
  | .mm => 1000
  | .ft => 3.28084
  | .inch => 39.3701

/-- The `weight` table of `conversionRates`. -/
def weightRate : WeightUnit → ℚ
  | .kg => 1
  | .g => 1000
  | .mg => 1000000
  | .lb => 2.20462
  | .oz => 35.27396

/-- Model of `convertTemperature` from script.js. -/
def convertTemperature (value : ℚ) (src dst : TempUnit) : ℚ :=
  if src = dst then value
  else
    let celsius : ℚ :=
      match src with
      | .celsius => value
      | .fahrenheit => (value - 32) * 5 / 9
      | .kelvin => value - 273.15
    match dst with
    | .celsius => celsius
    | .fahrenheit => celsius * 9 / 5 + 32
    | .kelvin => celsius + 273.15

/-- Model of the non-temperature branch of `convert`: divide by the
source rate to reach the base unit, multiply by the target rate. -/
def convertByRate (rate : α → ℚ) (value : ℚ) (src dst : α) : ℚ :=
  value / rate src * rate dst

theorem lengthRate_ne_zero (u : LengthUnit) : lengthRate u ≠ 0 := by
  cases u <;> norm_num [lengthRate]

theorem weightRate_ne_zero (u : WeightUnit) : weightRate u ≠ 0 := by
  cases u <;> norm_num [weightRate]

theorem convertByRate_roundtrip (rate : α → ℚ) (hr : ∀ u, rate u ≠ 0)
    (value : ℚ) (src dst : α) :
    convertByRate rate (convertByRate rate value src dst) dst src = value := by
  unfold convertByRate
  rw [mul_div_assoc, div_self (hr dst), mul_one, div_mul_cancel₀ value (hr src)]

theorem convertByRate_self (rate : α → ℚ) (hr : ∀ u, rate u ≠ 0)
    (value : ℚ) (u : α) : convertByRate rate value u u = value := by
  unfold convertByRate
  exact div_mul_cancel₀ value (hr u)

/-- Claim C6: in every converter category, converting and converting back
recovers the original value exactly, and converting a unit to itself is
the identity. -/
theorem converter_roundtrip :
    (∀ (x : ℚ) (u v : LengthUnit),
      convertByRate lengthRate (convertByRate lengthRate x u v) v u = x ∧
      convertByRate lengthRate x u u = x) ∧
    (∀ (x : ℚ) (u v : WeightUnit),
      convertByRate weightRate (convertByRate weightRate x u v) v u = x ∧
      convertByRate weightRate x u u = x) ∧
    (∀ (x : ℚ) (u v : TempUnit),
      convertTemperature (convertTemperature x u v) v u = x ∧
      convertTemperature x u u = x) := by
  refine ⟨fun x u v => ⟨convertByRate_roundtrip _ lengthRate_ne_zero x u v,
      convertByRate_self _ lengthRate_ne_zero x u⟩,
    fun x u v => ⟨convertByRate_roundtrip _ weightRate_ne_zero x u v,
      convertByRate_self _ weightRate_ne_zero x u⟩,
    fun x u v => ⟨?_, by simp [convertTemperature]⟩⟩
  cases u <;> cases v <;> simp [convertTemperature]

/-! ## Hex colour parsing (`hexToRgb`, script.js:2279-2286)

`hexToRgb` matches its input against the regular expression
`^#?([a-f0-9]{2})([a-f0-9]{2})([a-f0-9]{2})$` (case-insensitive) and
parses the three groups with radix 16, or returns `null`. -/

structure Rgb where
  r : Nat
  g : Nat
  b : Nat
deriving DecidableEq

def isHexDigit (c : Char) : Bool :=
  decide (('0' ≤ c ∧ c ≤ '9') ∨ ('a' ≤ c ∧ c ≤ 'f') ∨ ('A' ≤ c ∧ c ≤ 'F'))

/-- Value of one hexadecimal digit, as `parseInt` with radix 16 reads it. -/
def hexVal (c : Char) : Nat :=
  if '0' ≤ c ∧ c ≤ '9' then c.toNat - 48
  else if 'a' ≤ c ∧ c ≤ 'f' then c.toNat - 87
  else if 'A' ≤ c ∧ c ≤ 'F' then c.toNat - 55
  else 0

/-- The optional leading hash of the regular expression. -/
def stripHash : List Char → List Char
  | '#' :: r => r
  | s => s

/-- Model of `hexToRgb` from script.js. -/
def hexToRgb (s : List Char) : Option Rgb :=
  match stripHash s with
  | [a, b, c, d, e, f] =>
    if isHexDigit a && isHexDigit b && isHexDigit c && isHexDigit d &&
        isHexDigit e && isHexDigit f then
      some ⟨16 * hexVal a + hexVal b, 16 * hexVal c + hexVal d,
        16 * hexVal e + hexVal f⟩
    else none
  | _ => none

/-- Well-formedness in the words of the claim: exactly six hexadecimal
digits, optionally preceded by a hash character. -/
def goodHex (s : List Char) : Prop :=
  (∃ t, s = '#' :: t ∧ t.length = 6 ∧ ∀ c ∈ t, isHexDigit c = true) ∨
  (s.length = 6 ∧ ∀ c ∈ s, isHexDigit c = true)

theorem isHexDigit_hash : isHexDigit '#' = false := by decide

theorem goodHex_iff (s : List Char) :
    goodHex s ↔ (stripHash s).length = 6 ∧ ∀ c ∈ stripHash s, isHexDigit c = true := by
  constructor
  · rintro (⟨t, rfl, hl, hd⟩ | ⟨hl, hd⟩)
    · exact ⟨hl, hd⟩
    · match s, hl with
      | [a, b, c, d, e, f], _ =>
        rcases eq_or_ne a '#' with rfl | ha
        · have := hd '#' (by simp)
          simp [isHexDigit_hash] at this
        · have hstrip : stripHash [a, b, c, d, e, f] = [a, b, c, d, e, f] := by
            cases a <;> simp_all [stripHash]
          rw [hstrip]
          exact ⟨rfl, hd⟩
  · rintro ⟨hl, hd⟩
    match s with
    | '#' :: t => exact Or.inl ⟨t, rfl, hl, hd⟩
    | [] => simp [stripHash] at hl
    | c :: t =>
      rcases eq_or_ne c '#' with rfl | hc
      · exact Or.inl ⟨t, rfl, hl, hd⟩
      · have hstrip : stripHash (c :: t) = c :: t := by
          cases c <;> simp_all [stripHash]
        rw [hstrip] at hl hd
        exact Or.inr ⟨hl, hd⟩

/-- Claim C7: `hexToRgb` succeeds exactly on strings of six hexadecimal
digits optionally preceded by a hash, and on success the components are
the three two-digit groups parsed in base 16. -/
theorem hexToRgb_spec (s : List Char) :
    (hexToRgb s ≠ none ↔ goodHex s) ∧
    (∀ a b c d e f, stripHash s = [a, b, c, d, e, f] →
      (∀ x ∈ [a, b, c, d, e, f], isHexDigit x = true) →
      hexToRgb s = some ⟨16 * hexVal a + hexVal b, 16 * hexVal c + hexVal d,
        16 * hexVal e + hexVal f⟩) := by
  constructor
  · rw [goodHex_iff]
    unfold hexToRgb
    match h : stripHash s with
    | [a, b, c, d, e, f] =>
      by_cases hd : isHexDigit a && isHexDigit b && isHexDigit c && isHexDigit d &&
          isHexDigit e && isHexDigit f
      · simp only [hd, if_true]
        simp only [Bool.and_eq_true] at hd
        constructor
        · intro _
          refine ⟨rfl, ?_⟩
          intro x hx
          simp only [List.mem_cons, List.not_mem_nil, or_false] at hx
          rcases hx with rfl | rfl | rfl | rfl | rfl | rfl <;> tauto
        · intro _
          simp
      · simp only [hd, if_false]
        constructor
        · intro hne
          exact absurd rfl hne
        · rintro ⟨-, hall⟩
          exfalso
          apply hd
          simp only [Bool.and_eq_true]
          refine ⟨⟨⟨⟨⟨?_, ?_⟩, ?_⟩, ?_⟩, ?_⟩, ?_⟩ <;> apply hall <;> simp
    | [] => simp
    | [a] => simp
    | [a, b] => simp
    | [a, b, c] => simp
    | [a, b, c, d] => simp
    | [a, b, c, d, e] => simp
    | a :: b :: c :: d :: e :: f :: g :: t => simp
  · intro a b c d e f heq hall
    unfold hexToRgb
    rw [heq]
    have : isHexDigit a && isHexDigit b && isHexDigit c && isHexDigit d &&
        isHexDigit e && isHexDigit f := by
      simp only [Bool.and_eq_true]
      refine ⟨⟨⟨⟨⟨?_, ?_⟩, ?_⟩, ?_⟩, ?_⟩, ?_⟩ <;> apply hall <;> simp
    simp [this]

/-- Witness for claim C7: parsing the concrete string `#1aF20b`. -/
theorem hexToRgb_spec_witness :
    hexToRgb ['#', '1', 'a', 'F', '2', '0', 'b'] = some ⟨26, 242, 11⟩ := by
  have h := (hexToRgb_spec ['#', '1', 'a', 'F', '2', '0', 'b']).2
    '1' 'a' 'F' '2' '0' 'b' rfl (by decide)
  rw [h]
  decide

/-! ## Debounce (`debounce`, script.js:49-59)

The wrapper keeps one pending timeout.  Each call clears the pending
timeout and schedules the wrapped function `wait` milliseconds later
with the arguments of that call.  The timer queue is modelled by
processing wrapper calls in time order: a pending timeout whose due
time has been reached fires before the next call is handled, and a
timeout still pending after the last call fires at its due time. -/

def debounceRun (w : Nat) : List (Nat × α) → Option (Nat × α) → List (Nat × α)
  | [], none => []
  | [], some p => [p]
  | (t, a) :: rest, pending =>
    (match pending with
     | some (ft, b) => if ft ≤ t then [(ft, b)] else []
     | none => []) ++ debounceRun w rest (some (t + w, a))

/-- The claim in its own words: the wrapped function runs exactly for
those calls that are followed by no further call strictly within `w`
milliseconds, it runs `w` milliseconds after such a call, and it
receives the arguments of that (most recent) call. -/
def debounceSpec (w : Nat) (calls : List (Nat × α)) : List (Nat × α) :=
  (calls.filter fun c =>
      calls.all fun d => decide (d.1 ≤ c.1) || decide (c.1 + w ≤ d.1)).map
    fun c => (c.1 + w, c.2)

theorem all_or_right (c : Nat × α) (w : Nat) :
    ∀ l : List (Nat × α), (∀ d ∈ l, c.1 < d.1) →
      (l.all fun d => decide (d.1 ≤ c.1) || decide (c.1 + w ≤ d.1)) =
        (l.all fun d => decide (c.1 + w ≤ d.1)) := by
  intro l
  induction l with
  | nil => intro _; rfl
  | cons d l2 ih =>
    intro h
    rw [List.all_cons, List.all_cons]
    have hd : decide (d.1 ≤ c.1) = false := by
      simp only [decide_eq_false_iff_not, not_le]
      exact h d (List.mem_cons_self d l2)
    rw [hd, Bool.false_or, ih fun e he => h e (List.mem_cons_of_mem d he)]

theorem debounceSpec_cons (w : Nat) (c : Nat × α) (l : List (Nat × α))
    (h : ∀ d ∈ l, c.1 < d.1) :
    debounceSpec w (c :: l) =
      (if l.all (fun d => decide (c.1 + w ≤ d.1)) then [(c.1 + w, c.2)] else []) ++
        debounceSpec w l := by
  unfold debounceSpec
  rw [List.filter_cons]
  have hcond : ((c :: l).all fun d => decide (d.1 ≤ c.1) || decide (c.1 + w ≤ d.1)) =
      (l.all fun d => decide (c.1 + w ≤ d.1)) := by
    rw [List.all_cons, all_or_right c w l h]
    have hc : (decide (c.1 ≤ c.1) || decide (c.1 + w ≤ c.1)) = true := by simp
    rw [hc, Bool.true_and]
  have htail : (l.filter fun x =>
        (c :: l).all fun d => decide (d.1 ≤ x.1) || decide (x.1 + w ≤ d.1)) =
      (l.filter fun x => l.all fun d => decide (d.1 ≤ x.1) || decide (x.1 + w ≤ d.1)) := by
    apply List.filter_congr
    intro x hx
    rw [List.all_cons]
    have hcx : (decide (c.1 ≤ x.1) || decide (x.1 + w ≤ c.1)) = true := by
      have := le_of_lt (h x hx)
      simp [this]
    rw [hcx, Bool.true_and]
  rw [hcond, htail]
  by_cases hb : (l.all fun d => decide (c.1 + w ≤ d.1)) = true
  · rw [if_pos hb, if_pos hb, List.map_cons, List.singleton_append]
  · rw [if_neg hb, if_neg hb, List.nil_append]

theorem debounceRun_some (w : Nat) :
    ∀ (rest : List (Nat × α)) (t : Nat) (a : α),
      (∀ d ∈ rest, t < d.1) →
      List.Pairwise (fun c d => c.1 < d.1) rest →
      debounceRun w rest (some (t + w, a)) = debounceSpec w ((t, a) :: rest) := by
  intro rest
  induction rest with
  | nil =>
    intro t a _ _
    simp [debounceRun, debounceSpec]
  | cons c2 rest2 ih =>
    intro t a hlt hpw
    obtain ⟨t2, a2⟩ := c2
    rw [List.pairwise_cons] at hpw
    have step : debounceRun w ((t2, a2) :: rest2) (some (t + w, a)) =
        (if t + w ≤ t2 then [(t + w, a)] else []) ++
          debounceRun w rest2 (some (t2 + w, a2)) := by
      simp only [debounceRun]
    rw [step, ih t2 a2 hpw.1 hpw.2, debounceSpec_cons w (t, a) ((t2, a2) :: rest2) hlt]
    have hall : (((t2, a2) :: rest2).all fun d => decide (t + w ≤ d.1)) =
        decide (t + w ≤ t2) := by
      rw [List.all_cons]
      by_cases hle : t + w ≤ t2
      · have hrest : rest2.all (fun d => decide (t + w ≤ d.1)) = true := by
          rw [List.all_eq_true]
          intro d hd
          have ht2d : t2 < d.1 := hpw.1 d hd
          simp only [decide_eq_true_eq]
          omega
        simp [hle, hrest]
      · simp [hle]
    rw [hall]
    by_cases hle : t + w ≤ t2 <;> simp [hle]

/-- Claim C2: over any strictly time-ordered sequence of wrapper calls,
the debounced wrapper fires exactly for the calls followed by no further
call within `w` milliseconds, `w` milliseconds after that call and with
that call's arguments; every earlier re-call cancels the pending firing. -/
theorem debounce_spec (w : Nat) (calls : List (Nat × α))
    (hsorted : List.Pairwise (fun c d => c.1 < d.1) calls) :
    debounceRun w calls none = debounceSpec w calls := by
  cases calls with
  | nil => rfl
  | cons c rest =>
    obtain ⟨t, a⟩ := c
    rw [List.pairwise_cons] at hsorted
    have step : debounceRun w ((t, a) :: rest) none =
        [] ++ debounceRun w rest (some (t + w, a)) := by
      simp only [debounceRun]
    rw [step, List.nil_append]
    exact debounceRun_some w rest t a hsorted.1 hsorted.2

/-- Witness for claim C2: three concrete calls at times 0, 5 and 20 with
wait 10; the call at 0 is cancelled by the call at 5, which fires at 15,
and the call at 20 fires at 30. -/
theorem debounce_spec_witness :
    debounceRun 10 [(0, 1), (5, 2), (20, 3)] (none : Option (Nat × Nat)) =
      [(15, 2), (30, 3)] := by
  rw [debounce_spec 10 [(0, 1), (5, 2), (20, 3)] (by decide)]
  decide

/-! ## Throttle (`throttle`, script.js:75-84)

The wrapper keeps a boolean `inThrottle`.  A call while the flag is
clear invokes the wrapped function immediately with that call's
arguments and schedules the flag to clear `limit` milliseconds later;
calls while the flag is set are ignored.  The state is modelled by the
time at which the flag clears. -/

def throttleRun (L : Nat) : List (Nat × α) → Option Nat → List (Nat × α)
  | [], _ => []
  | (t, a) :: rest, some r =>
    if r ≤ t then (t, a) :: throttleRun L rest (some (t + L))
    else throttleRun L rest (some r)
  | (t, a) :: rest, none => (t, a) :: throttleRun L rest (some (t + L))

/-- The claim in its own words: a call invokes the function immediately
when no invocation happened in the preceding `L` milliseconds, and a
call within `L` milliseconds of the previous invocation is discarded. -/
def throttleSpecGo (L : Nat) : Option Nat → List (Nat × α) → List (Nat × α)
  | _, [] => []
  | none, (t, a) :: rest => (t, a) :: throttleSpecGo L (some t) rest
  | some tl, (t, a) :: rest =>
    if tl + L ≤ t then (t, a) :: throttleSpecGo L (some t) rest
    else throttleSpecGo L (some tl) rest

def throttleSpec (L : Nat) (calls : List (Nat × α)) : List (Nat × α) :=
  throttleSpecGo L none calls

theorem throttleRun_eq_go (L : Nat) :
    ∀ (calls : List (Nat × α)) (tl : Nat),
      throttleRun L calls (some (tl + L)) = throttleSpecGo L (some tl) calls := by
  intro calls
  induction calls with
  | nil => intro tl; rfl
  | cons c rest ih =>
    intro tl
    obtain ⟨t, a⟩ := c
    simp only [throttleRun, throttleSpecGo]
    by_cases h : tl + L ≤ t
    · simp [h, ih]
    · simp [h, ih]

theorem throttleRun_sublist (L : Nat) :
    ∀ (calls : List (Nat × α)) (st : Option Nat),
      List.Sublist (throttleRun L calls st) calls := by
  intro calls
  induction calls with
  | nil => intro st; simp [throttleRun]
  | cons c rest ih =>
    intro st
    obtain ⟨t, a⟩ := c
    match st with
    | none => exact List.Sublist.cons₂ _ (ih (some (t + L)))
    | some r =>
      simp only [throttleRun]
      by_cases h : r ≤ t
      · simp only [h, if_true]
        exact List.Sublist.cons₂ _ (ih (some (t + L)))
      · simp only [h, if_false]
        exact List.Sublist.cons _ (ih (some r))

theorem throttleRun_chain (L : Nat) :
    ∀ (calls : List (Nat × α)) (r : Nat),
      List.Pairwise (fun c d => c.1 ≤ d.1) calls →
      List.Chain' (fun x y => x.1 + L ≤ y.1) (throttleRun L calls (some r)) ∧
      (∀ x ∈ throttleRun L calls (some r), r ≤ x.1) := by
  intro calls
  induction calls with
  | nil => intro r _; simp [throttleRun]
  | cons c rest ih =>
    intro r hpw
    obtain ⟨t, a⟩ := c
    rw [List.pairwise_cons] at hpw
    simp only [throttleRun]
    by_cases h : r ≤ t
    · simp only [h, if_true]
      have htail := ih (t + L) hpw.2
      constructor
      · rw [List.chain'_cons']
        refine ⟨fun y hy => ?_, htail.1⟩
        exact htail.2 y (List.mem_of_mem_head? hy)
      · intro x hx
        rcases List.mem_cons.mp hx with rfl | hx'
        · exact h
        · have := htail.2 x hx'
          omega
    · simp only [h, if_false]
      exact ih r hpw.2

/-- Claim C3: the throttled wrapper equals the rate-limiting
specification written from the claim (immediate invocation when the
interval has elapsed, discarding of calls inside the interval), and on
any time-ordered call sequence its invocations are a subsequence of the
calls with consecutive invocations at least `L` milliseconds apart. -/
theorem throttle_spec (L : Nat) (calls : List (Nat × α)) :
    throttleRun L calls none = throttleSpec L calls ∧
    (List.Pairwise (fun c d => c.1 ≤ d.1) calls →
      List.Chain' (fun x y => x.1 + L ≤ y.1) (throttleRun L calls none) ∧
      List.Sublist (throttleRun L calls none) calls) := by
  constructor
  · cases calls with
    | nil => rfl
    | cons c rest =>
      obtain ⟨t, a⟩ := c
      simp only [throttleRun, throttleSpec, throttleSpecGo]
      exact congrArg _ (throttleRun_eq_go L rest t)
  · intro hpw
    refine ⟨?_, throttleRun_sublist L calls none⟩
    cases calls with
    | nil => simp [throttleRun]
    | cons c rest =>
      obtain ⟨t, a⟩ := c
      rw [List.pairwise_cons] at hpw
      simp only [throttleRun]
      rw [List.chain'_cons']
      have htail := throttleRun_chain L rest (t + L) hpw.2
      refine ⟨fun y hy => ?_, htail.1⟩
      exact htail.2 y (List.mem_of_mem_head? hy)

/-- Witness for claim C3: four concrete calls at times 0, 3, 10 and 25
with limit 10; the call at 3 is discarded and the others invoke. -/
theorem throttle_spec_witness :
    throttleRun 10 [(0, 1), (3, 2), (10, 3), (25, 4)] (none : Option Nat) =
        [(0, 1), (10, 3), (25, 4)] ∧
      List.Chain' (fun x y => x.1 + 10 ≤ y.1)
        (throttleRun 10 [(0, 1), (3, 2), (10, 3), (25, 4)] (none : Option Nat)) := by
  refine ⟨by decide, ?_⟩
  exact ((throttle_spec 10 [(0, 1), (3, 2), (10, 3), (25, 4)]).2 (by decide)).1

/-! ## Search (`performSearch`, script.js:262-293)

`performSearch` trims the query, escapes every regex metacharacter and
scans the editor content with a global case-insensitive regular
expression, recording index, matched text and end for every
non-overlapping occurrence.  The escaped pattern matches literally, so
the scan is modelled directly: at each position either the query matches
case-insensitively and the scan continues after the match, or the scan
advances one character. -/

/-- The WhiteSpace and LineTerminator code points recognised by
`String.prototype.trim`. -/
def isJsSpace (c : Char) : Bool :=
  c.toNat = 32 || (9 ≤ c.toNat && c.toNat ≤ 13) || c.toNat = 160 ||
    c.toNat = 5760 || (8192 ≤ c.toNat && c.toNat ≤ 8202) || c.toNat = 8232 ||
    c.toNat = 8233 || c.toNat = 8239 || c.toNat = 8287 || c.toNat = 12288 ||
    c.toNat = 65279

/-- Model of `String.prototype.trim`. -/
def jsTrim (s : List Char) : List Char :=
  ((s.dropWhile isJsSpace).reverse.dropWhile isJsSpace).reverse

theorem jsTrim_eq_nil_imp (s : List Char) (h : jsTrim s = []) :
    ∀ c ∈ s, isJsSpace c = true := by
  unfold jsTrim at h
  rw [List.reverse_eq_nil_iff] at h
  have h2 := List.dropWhile_eq_nil_iff.mp h
  intro c hc
  by_cases hcd : c ∈ s.dropWhile isJsSpace
  · exact h2 c (List.mem_reverse.mpr hcd)
  · have hsplit := List.takeWhile_append_dropWhile (p := isJsSpace) (l := s)
    have hmem : c ∈ s.takeWhile isJsSpace ++ s.dropWhile isJsSpace := by
      rw [hsplit]; exact hc
    rcases List.mem_append.mp hmem with h3 | h3
    · exact List.mem_takeWhile_imp h3
    · exact absurd h3 hcd

theorem jsTrim_ne_nil {s : List Char} (h : ∃ c ∈ s, isJsSpace c = false) :
    jsTrim s ≠ [] := by
  intro hnil
  obtain ⟨c, hc, hcs⟩ := h
  rw [jsTrim_eq_nil_imp s hnil c hc] at hcs
  exact Bool.noConfusion hcs

/-- The case-insensitive flag makes the regex engine compare characters
through the ECMAScript abstract operation `Canonicalize`, whose Unicode
case table is environment data not reproduced here: it enters the model
as a parameter `canon : Char → Char`, two characters matching when their
canonical images are equal.  Every theorem below is proved for every
`canon`, hence in particular for the engine's actual table.  This
definition is `Canonicalize` restricted to ASCII (lower-case letters map
to upper case, everything else is fixed), where it agrees with the
engine; it instantiates `canon` on the all-ASCII concrete inputs of
witnesses and counterexamples. -/
def asciiCanon (c : Char) : Char :=
  if 'a' ≤ c ∧ c ≤ 'z' then Char.ofNat (c.toNat - 32) else c

/-- The literal pattern `q` matches in `content` at position `i`,
case-insensitively under the canonicalization `canon`. -/
def occursAtB (canon : Char → Char) (content q : List Char) (i : Nat) : Bool :=
  decide (((content.drop i).take q.length).map canon = q.map canon ∧
    i + q.length ≤ content.length)

/-- One entry of `searchMatches`: the fields `index`, `text` and `end`
pushed by `performSearch` (`end` is a Lean keyword, hence `stop`). -/
structure SearchMatch where
  index : Nat
  text : List Char
  stop : Nat
deriving DecidableEq

/-- The `regex.exec` loop of `performSearch`: scan from position `i`,
recording each match and resuming after it.  The fuel argument only
bounds the recursion; `content.length + 1` steps always suffice. -/
def scanFromAux (canon : Char → Char) (content q : List Char) :
    Nat → Nat → List SearchMatch
  | 0, _ => []
  | fuel + 1, i =>
    if content.length < i + q.length then []
    else if occursAtB canon content q i then
      ⟨i, (content.drop i).take q.length, i + q.length⟩ ::
        scanFromAux canon content q fuel (i + q.length)
    else scanFromAux canon content q fuel (i + 1)

def scanFrom (canon : Char → Char) (content q : List Char) : List SearchMatch :=
  scanFromAux canon content q (content.length + 1) 0

/-- Model of `performSearch`: the resulting `searchMatches` and
`currentMatchIndex`.  An empty trimmed query clears both. -/
def performSearchModel (canon : Char → Char) (content rawQuery : List Char) :
    List SearchMatch × Int :=
  let q := jsTrim rawQuery
  if q = [] then ([], -1)
  else
    let ms := scanFrom canon content q
    (ms, if ms = [] then -1 else 0)

theorem scanFromAux_sound (canon : Char → Char) (content q : List Char) :
    ∀ fuel i, ∀ m ∈ scanFromAux canon content q fuel i,
      i ≤ m.index ∧ occursAtB canon content q m.index = true ∧
      m.text = (content.drop m.index).take q.length ∧
      m.stop = m.index + q.length := by
  intro fuel
  induction fuel with
  | zero => intro i m hm; simp [scanFromAux] at hm
  | succ fuel ih =>
    intro i m hm
    simp only [scanFromAux] at hm
    split_ifs at hm with h1 h2
    · simp at hm
    · rcases List.mem_cons.mp hm with rfl | hm'
      · exact ⟨le_refl _, h2, rfl, rfl⟩
      · obtain ⟨hi, ho, ht, hs⟩ := ih (i + q.length) m hm'
        exact ⟨by omega, ho, ht, hs⟩
    · obtain ⟨hi, ho, ht, hs⟩ := ih (i + 1) m hm
      exact ⟨by omega, ho, ht, hs⟩

theorem scanFromAux_chain (canon : Char → Char) (content q : List Char) (hq : q ≠ []) :
    ∀ fuel i, List.Chain' (fun x y => x.stop ≤ y.index ∧ x.index < y.index)
      (scanFromAux canon content q fuel i) := by
  have hql : 1 ≤ q.length := by
    cases q with
    | nil => exact absurd rfl hq
    | cons c t => simp
  intro fuel
  induction fuel with
  | zero => intro i; simp [scanFromAux]
  | succ fuel ih =>
    intro i
    simp only [scanFromAux]
    split_ifs with h1 h2
    · simp
    · rw [List.chain'_cons']
      refine ⟨fun y hy => ?_, ih (i + q.length)⟩
      have hmem := List.mem_of_mem_head? hy
      have := (scanFromAux_sound canon content q fuel (i + q.length) y hmem).1
      constructor
      · exact this
      · show i < y.index
        omega
    · exact ih (i + 1)

theorem scanFromAux_complete (canon : Char → Char) (content q : List Char) (hq : q ≠ []) :
    ∀ fuel i, content.length < fuel + i →
      ∀ p, i ≤ p → occursAtB canon content q p = true →
        ∃ m ∈ scanFromAux canon content q fuel i,
          m.index ≤ p ∧ p < m.index + q.length := by
  have hql : 1 ≤ q.length := by
    cases q with
    | nil => exact absurd rfl hq
    | cons c t => simp
  intro fuel
  induction fuel with
  | zero =>
    intro i hfuel p hip hocc
    simp only [occursAtB, decide_eq_true_eq] at hocc
    omega
  | succ fuel ih =>
    intro i hfuel p hip hocc
    have harith : p + q.length ≤ content.length := by
      have := (decide_eq_true_eq.mp hocc).2
      exact this
    simp only [scanFromAux]
    split_ifs with h1 h2
    · omega
    · by_cases hp : p < i + q.length
      · exact ⟨⟨i, (content.drop i).take q.length, i + q.length⟩,
          List.mem_cons_self _ _, hip, hp⟩
      · obtain ⟨m, hm, hle, hlt⟩ :=
          ih (i + q.length) (by omega) p (by omega) hocc
        exact ⟨m, List.mem_cons_of_mem _ hm, hle, hlt⟩
    · have hpi : p ≠ i := by
        intro h
        rw [h] at hocc
        rw [hocc] at h2
        exact h2 rfl
      obtain ⟨m, hm, hle, hlt⟩ := ih (i + 1) (by omega) p (by omega) hocc
      exact ⟨m, hm, hle, hlt⟩

/-- Claim C4: for a query with non-empty trimmed form and for every
character canonicalization (in particular the regex engine's),
`performSearch` records exactly the non-overlapping case-insensitive
occurrences of the literal trimmed query, in ascending position order,
each with `end = index + text.length`, and sets `currentMatchIndex` to 0
when a match exists and to -1 otherwise. -/
theorem performSearch_spec (canon : Char → Char) (content rawQuery : List Char)
    (hq : jsTrim rawQuery ≠ []) :
    (∀ m ∈ (performSearchModel canon content rawQuery).1,
      m.stop = m.index + m.text.length) ∧
    List.Chain' (fun x y => x.stop ≤ y.index ∧ x.index < y.index)
      (performSearchModel canon content rawQuery).1 ∧
    (∀ m ∈ (performSearchModel canon content rawQuery).1,
      occursAtB canon content (jsTrim rawQuery) m.index = true ∧
      m.text = (content.drop m.index).take (jsTrim rawQuery).length) ∧
    (∀ p, occursAtB canon content (jsTrim rawQuery) p = true →
      ∃ m ∈ (performSearchModel canon content rawQuery).1,
        m.index ≤ p ∧ p < m.index + (jsTrim rawQuery).length) ∧
    (performSearchModel canon content rawQuery).2 =
      (if (performSearchModel canon content rawQuery).1 = [] then -1 else 0) := by
  have hres : performSearchModel canon content rawQuery =
      (scanFrom canon content (jsTrim rawQuery),
        if scanFrom canon content (jsTrim rawQuery) = [] then (-1 : Int) else 0) := by
    unfold performSearchModel
    simp [hq]
  rw [hres]
  refine ⟨?_, ?_, ?_, ?_, rfl⟩
  · intro m hm
    obtain ⟨-, ho, ht, hs⟩ :=
      scanFromAux_sound canon content (jsTrim rawQuery) (content.length + 1) 0 m hm
    have harith := (decide_eq_true_eq.mp ho).2
    rw [hs, ht]
    rw [List.length_take, List.length_drop]
    omega
  · exact scanFromAux_chain canon content (jsTrim rawQuery) hq (content.length + 1) 0
  · intro m hm
    obtain ⟨-, ho, ht, -⟩ :=
      scanFromAux_sound canon content (jsTrim rawQuery) (content.length + 1) 0 m hm
    exact ⟨ho, ht⟩
  · intro p hp
    exact scanFromAux_complete canon content (jsTrim rawQuery) hq (content.length + 1) 0
      (by omega) p (Nat.zero_le p) hp

/-- Witness for claim C4: searching for the query `" a"` (which trims to
`"a"`) in the content `"abA"` finds the occurrences at 0 and 2 and sets
`currentMatchIndex` to 0; on this all-ASCII input `asciiCanon` is the
engine's canonicalization. -/
theorem performSearch_spec_witness :
    (performSearchModel asciiCanon ['a', 'b', 'A'] [' ', 'a']).1 =
        [⟨0, ['a'], 1⟩, ⟨2, ['A'], 3⟩] ∧
      (performSearchModel asciiCanon ['a', 'b', 'A'] [' ', 'a']).2 = 0 := by
  refine ⟨by decide, ?_⟩
  have h := (performSearch_spec asciiCanon ['a', 'b', 'A'] [' ', 'a'] (by decide)).2.2.2.2
  rw [h]
  decide

/-! ## Search navigation state (`navigateSearch`, `clearSearchHighlights`,
script.js:318-343)

The search state is the pair of the variables `searchMatches` and
`currentMatchIndex` (a JavaScript number, modelled as `Int` since it
takes the value -1).  A search operation carries the canonicalization
its regex compares characters with. -/

structure SearchState where
  searchMatches : List SearchMatch
  currentMatchIndex : Int
deriving DecidableEq

/-- Model of `navigateSearch`: move by `dir` and wrap around at both
ends; do nothing when there are no matches. -/
def navigateSearch (st : SearchState) (dir : Int) : SearchState :=
  if st.searchMatches = [] then st
  else
    let ci := st.currentMatchIndex + dir
    if ci < 0 then { st with currentMatchIndex := (st.searchMatches.length : Int) - 1 }
    else if (st.searchMatches.length : Int) ≤ ci then { st with currentMatchIndex := 0 }
    else { st with currentMatchIndex := ci }

/-- Model of `clearSearchHighlights`. -/
def clearSearchHighlights : SearchState := ⟨[], -1⟩

/-- Model of `performSearch` acting on the search state. -/
def performSearchOp (canon : Char → Char) (content rawQuery : List Char) : SearchState :=
  let res := performSearchModel canon content rawQuery
  ⟨res.1, res.2⟩

inductive SearchOp where
  | search (canon : Char → Char) (content rawQuery : List Char)
  | navigate (dir : Int)
  | clear

def applySearchOp (st : SearchState) : SearchOp → SearchState
  | .search canon content rawQuery => performSearchOp canon content rawQuery
  | .navigate dir => navigateSearch st dir
  | .clear => clearSearchHighlights

def runSearchOps (ops : List SearchOp) (st : SearchState) : SearchState :=
  ops.foldl applySearchOp st

/-- The invariant of the claim: no matches and index -1, or a non-empty
match list with the index inside its range. -/
def searchInv (st : SearchState) : Prop :=
  (st.searchMatches = [] ∧ st.currentMatchIndex = -1) ∨
  (st.searchMatches ≠ [] ∧ 0 ≤ st.currentMatchIndex ∧
    st.currentMatchIndex < (st.searchMatches.length : Int))

theorem searchInv_clear : searchInv clearSearchHighlights := by
  left
  exact ⟨rfl, rfl⟩

theorem searchInv_perform (canon : Char → Char) (content rawQuery : List Char) :
    searchInv (performSearchOp canon content rawQuery) := by
  by_cases hq : jsTrim rawQuery = []
  · have hst : performSearchOp canon content rawQuery = ⟨[], -1⟩ := by
      unfold performSearchOp performSearchModel
      simp [hq]
    rw [hst]
    left
    exact ⟨rfl, rfl⟩
  · by_cases hm : scanFrom canon content (jsTrim rawQuery) = []
    · have hst : performSearchOp canon content rawQuery =
          ⟨scanFrom canon content (jsTrim rawQuery), -1⟩ := by
        unfold performSearchOp performSearchModel
        simp [hq, hm]
      rw [hst]
      left
      exact ⟨hm, rfl⟩
    · have hst : performSearchOp canon content rawQuery =
          ⟨scanFrom canon content (jsTrim rawQuery), 0⟩ := by
        unfold performSearchOp performSearchModel
        simp [hq, hm]
      rw [hst]
      right
      refine ⟨hm, le_refl 0, ?_⟩
      have hpos : 0 < (scanFrom canon content (jsTrim rawQuery)).length :=
        List.length_pos.mpr hm
      show (0 : Int) < ((scanFrom canon content (jsTrim rawQuery)).length : Int)
      exact_mod_cast hpos

theorem searchInv_navigate (st : SearchState) (dir : Int) (h : searchInv st) :
    searchInv (navigateSearch st dir) := by
  unfold navigateSearch
  by_cases hm : st.searchMatches = []
  · simp only [hm, if_true]
    exact h
  · simp only [hm, if_false]
    have hlen : 0 < (st.searchMatches.length : Int) := by
      have : st.searchMatches.length ≠ 0 := fun hz => hm (List.length_eq_zero.mp hz)
      omega
    by_cases h1 : st.currentMatchIndex + dir < 0
    · simp only [h1, if_true]
      right
      refine ⟨hm, ?_, ?_⟩
      · show (0 : Int) ≤ (st.searchMatches.length : Int) - 1
        omega
      · show (st.searchMatches.length : Int) - 1 < (st.searchMatches.length : Int)
        omega
    · simp only [h1, if_false]
      by_cases h2 : (st.searchMatches.length : Int) ≤ st.currentMatchIndex + dir
      · simp only [h2, if_true]
        right
        exact ⟨hm, le_refl 0, hlen⟩
      · simp only [h2, if_false]
        right
        refine ⟨hm, ?_, ?_⟩
        · show (0 : Int) ≤ st.currentMatchIndex + dir
          omega
        · show st.currentMatchIndex + dir < (st.searchMatches.length : Int)
          omega

theorem searchInv_step (st : SearchState) (op : SearchOp) (h : searchInv st) :
    searchInv (applySearchOp st op) := by
  cases op with
  | search canon content rawQuery => exact searchInv_perform canon content rawQuery
  | navigate dir => exact searchInv_navigate st dir h
  | clear => exact searchInv_clear

theorem searchInv_run (ops : List SearchOp) :
    ∀ st, searchInv st → searchInv (runSearchOps ops st) := by
  induction ops with
  | nil => intro st h; exact h
  | cons op rest ih =>
    intro st h
    exact ih (applySearchOp st op) (searchInv_step st op h)

/-- Claim C8: every sequence of search operations starting from the
initial state keeps `searchMatches` and `currentMatchIndex` in the
invariant, and `navigateSearch` wraps from the last match to the first
and from the first to the last. -/
theorem search_state_invariant :
    (∀ ops : List SearchOp, searchInv (runSearchOps ops ⟨[], -1⟩)) ∧
    (∀ st : SearchState, st.searchMatches ≠ [] →
      st.currentMatchIndex = (st.searchMatches.length : Int) - 1 →
      (navigateSearch st 1).currentMatchIndex = 0) ∧
    (∀ st : SearchState, st.searchMatches ≠ [] → st.currentMatchIndex = 0 →
      (navigateSearch st (-1)).currentMatchIndex =
        (st.searchMatches.length : Int) - 1) := by
  refine ⟨fun ops => searchInv_run ops ⟨[], -1⟩ (Or.inl ⟨rfl, rfl⟩), ?_, ?_⟩
  · intro st hm hc
    have hlen : 0 < (st.searchMatches.length : Int) := by
      have : st.searchMatches.length ≠ 0 := fun hz => hm (List.length_eq_zero.mp hz)
      omega
    unfold navigateSearch
    simp only [hm, if_false, hc]
    have h1 : ¬((st.searchMatches.length : Int) - 1 + 1 < 0) := by omega
    have h2 : (st.searchMatches.length : Int) ≤ (st.searchMatches.length : Int) - 1 + 1 := by
      omega
    simp only [h1, if_false, h2, if_true]
  · intro st hm hc
    have hlen : 0 < (st.searchMatches.length : Int) := by
      have : st.searchMatches.length ≠ 0 := fun hz => hm (List.length_eq_zero.mp hz)
      omega
    unfold navigateSearch
    simp only [hm, if_false, hc]
    have h1 : (0 : Int) + -1 < 0 := by omega
    simp only [h1, if_true]

/-- Witness for claim C8: a concrete run (search for `"a"` in `"aba"`,
then navigate forward twice, wrapping back to index 0), plus the two
wrap-around facts at a concrete two-match state. -/
theorem search_state_invariant_witness :
    searchInv (runSearchOps
        [SearchOp.search asciiCanon ['a', 'b', 'a'] ['a'], SearchOp.navigate 1,
          SearchOp.navigate 1] ⟨[], -1⟩) ∧
      (navigateSearch ⟨[⟨0, ['a'], 1⟩, ⟨2, ['a'], 3⟩], 1⟩ 1).currentMatchIndex = 0 ∧
      (navigateSearch ⟨[⟨0, ['a'], 1⟩, ⟨2, ['a'], 3⟩], 0⟩ (-1)).currentMatchIndex = 1 := by
  refine ⟨search_state_invariant.1 _, ?_, ?_⟩
  · exact search_state_invariant.2.1 ⟨[⟨0, ['a'], 1⟩, ⟨2, ['a'], 3⟩], 1⟩
      (by decide) (by decide)
  · have h := search_state_invariant.2.2 ⟨[⟨0, ['a'], 1⟩, ⟨2, ['a'], 3⟩], 0⟩
      (by decide) (by decide)
    rw [h]
    decide

/-! ## Replace all (`replaceAllBtn` click handler, script.js:400-425)

The handler rebuilds the literal case-insensitive regex from the trimmed
query, counts the matches with `String.prototype.match`, and after
confirmation runs `editor.value.replace(regex, replaceText)`.  As for
search, the regex comparison goes through the canonicalization
parameter `canon`.  JavaScript `replace` interprets replacement
patterns in the replacement string: `$$` inserts a dollar, `$&` the
matched text, a dollar followed by a backquote the text before the
match, and a dollar followed by a quote the text after the match (the
pattern has no capture groups, so `$n` stays literal). -/

/-- The literal pattern `q` matches a prefix of `s`, case-insensitively
under the canonicalization `canon`. -/
def canonStartsWith (canon : Char → Char) (q s : List Char) : Bool :=
  decide ((s.take q.length).map canon = q.map canon ∧ q.length ≤ s.length)

theorem occursAtB_eq_canonStarts (canon : Char → Char) (content q : List Char)
    (i : Nat) (hi : i ≤ content.length) :
    occursAtB canon content q i = canonStartsWith canon q (content.drop i) := by
  simp only [occursAtB, canonStartsWith, List.length_drop]
  rw [decide_eq_decide]
  constructor
  · rintro ⟨h1, h2⟩
    exact ⟨h1, by omega⟩
  · rintro ⟨h1, h2⟩
    exact ⟨h1, by omega⟩

/-- The `GetSubstitution` step of JavaScript `String.prototype.replace`
for a pattern with no capture groups: expansion of one replacement
string given the matched text, the text before and the text after the
match. -/
def expandRepl (matched pre post : List Char) : List Char → List Char
  | [] => []
  | [c] => [c]
  | c :: d :: rest =>
    if c = '$' then
      if d = '$' then '$' :: expandRepl matched pre post rest
      else if d = '&' then matched ++ expandRepl matched pre post rest
      else if d = Char.ofNat 96 then pre ++ expandRepl matched pre post rest
      else if d = Char.ofNat 39 then post ++ expandRepl matched pre post rest
      else c :: expandRepl matched pre post (d :: rest)
    else c :: expandRepl matched pre post (d :: rest)

theorem expandRepl_no_dollar (matched pre post : List Char) :
    ∀ repl : List Char, '$' ∉ repl → expandRepl matched pre post repl = repl := by
  intro repl
  induction repl with
  | nil => intro _; rfl
  | cons c rest ih =>
    intro h
    have hc : c ≠ '$' := by
      intro he
      apply h
      rw [← he]
      exact List.mem_cons_self c rest
    cases rest with
    | nil => rfl
    | cons d rest2 =>
      simp only [expandRepl, if_neg hc]
      have h2 : '$' ∉ d :: rest2 := fun hm => h (List.mem_cons_of_mem c hm)
      rw [ih h2]

/-- The scan of JavaScript global `replace`: copy until a match, emit
the expanded replacement, resume after the match.  Fuel-bounded;
`content.length + 1` steps always suffice. -/
def replaceFromAux (canon : Char → Char) (content q repl : List Char) :
    Nat → Nat → List Char
  | 0, i => content.drop i
  | fuel + 1, i =>
    if content.length < i + q.length then content.drop i
    else if occursAtB canon content q i then
      expandRepl ((content.drop i).take q.length) (content.take i)
          (content.drop (i + q.length)) repl ++
        replaceFromAux canon content q repl fuel (i + q.length)
    else (content.drop i).take 1 ++ replaceFromAux canon content q repl fuel (i + 1)

/-- Model of the replace-all handler: `none` when the trimmed query is
empty or no match exists (the handler only shows a toast then);
otherwise the new editor content and the reported count. -/
def replaceAllModel (canon : Char → Char) (content rawQuery repl : List Char) :
    Option (List Char × Nat) :=
  let q := jsTrim rawQuery
  if q = [] then none
  else
    let n := (scanFrom canon content q).length
    if n = 0 then none
    else some (replaceFromAux canon content q repl (content.length + 1) 0, n)

/-- The claim in its own words: every non-overlapping case-insensitive
occurrence of the literal query is replaced by the replacement string
itself, text outside the occurrences is unchanged. -/
def specReplaceGo (canon : Char → Char) (q repl : List Char) : Nat → List Char → List Char
  | 0, s => s
  | fuel + 1, s =>
    match s with
    | [] => []
    | c :: rest =>
      if q.length ≠ 0 ∧ canonStartsWith canon q (c :: rest) = true then
        repl ++ specReplaceGo canon q repl fuel ((c :: rest).drop q.length)
      else c :: specReplaceGo canon q repl fuel rest

def specReplaceAll (canon : Char → Char) (content q repl : List Char) : List Char :=
  specReplaceGo canon q repl (content.length + 1) content

/-- The number of non-overlapping case-insensitive occurrences, in the
words of the claim. -/
def specCountGo (canon : Char → Char) (q : List Char) : Nat → List Char → Nat
  | 0, _ => 0
  | fuel + 1, s =>
    match s with
    | [] => 0
    | c :: rest =>
      if q.length ≠ 0 ∧ canonStartsWith canon q (c :: rest) = true then
        1 + specCountGo canon q fuel ((c :: rest).drop q.length)
      else specCountGo canon q fuel rest

theorem specReplaceGo_short (canon : Char → Char) (q repl : List Char) :
    ∀ fuel s, s.length < q.length → specReplaceGo canon q repl fuel s = s := by
  intro fuel
  induction fuel with
  | zero => intro s _; rfl
  | succ fuel ih =>
    intro s h
    cases s with
    | nil => rfl
    | cons c rest =>
      simp only [specReplaceGo]
      simp only [List.length_cons] at h
      have hcond : ¬(q.length ≠ 0 ∧ canonStartsWith canon q (c :: rest) = true) := by
        rintro ⟨-, hl⟩
        simp only [canonStartsWith, decide_eq_true_eq, List.length_cons] at hl
        omega
      rw [if_neg hcond, ih rest (by omega)]

theorem specCountGo_short (canon : Char → Char) (q : List Char) :
    ∀ fuel s, s.length < q.length → specCountGo canon q fuel s = 0 := by
  intro fuel
  induction fuel with
  | zero => intro s _; rfl
  | succ fuel ih =>
    intro s h
    cases s with
    | nil => rfl
    | cons c rest =>
      simp only [specCountGo]
      simp only [List.length_cons] at h
      have hcond : ¬(q.length ≠ 0 ∧ canonStartsWith canon q (c :: rest) = true) := by
        rintro ⟨-, hl⟩
        simp only [canonStartsWith, decide_eq_true_eq, List.length_cons] at hl
        omega
      rw [if_neg hcond, ih rest (by omega)]

theorem replaceFromAux_eq_spec (canon : Char → Char) (content q repl : List Char)
    (hq : q.length ≠ 0) (hd : '$' ∉ repl) :
    ∀ fuel i, i ≤ content.length →
      replaceFromAux canon content q repl fuel i =
        specReplaceGo canon q repl fuel (content.drop i) := by
  intro fuel
  induction fuel with
  | zero => intro i _; rfl
  | succ fuel ih =>
    intro i hi
    simp only [replaceFromAux]
    split_ifs with h1 h2
    · rw [specReplaceGo_short canon q repl (fuel + 1) (content.drop i)
        (by rw [List.length_drop]; omega)]
    · have hilt : i < content.length := by omega
      cases hdrop : content.drop i with
      | nil =>
        have := congrArg List.length hdrop
        simp only [List.length_drop, List.length_nil] at this
        omega
      | cons c rest =>
        simp only [specReplaceGo]
        have hcond : q.length ≠ 0 ∧ canonStartsWith canon q (c :: rest) = true := by
          refine ⟨hq, ?_⟩
          rw [← hdrop, ← occursAtB_eq_canonStarts canon content q i hi]
          exact h2
        rw [if_pos hcond]
        congr 1
        · rw [expandRepl_no_dollar _ _ _ repl hd]
        · rw [← hdrop, List.drop_drop, ih (i + q.length) (by omega)]
    · have hilt : i < content.length := by omega
      cases hdrop : content.drop i with
      | nil =>
        have := congrArg List.length hdrop
        simp only [List.length_drop, List.length_nil] at this
        omega
      | cons c rest =>
        simp only [specReplaceGo]
        have hcond : ¬(q.length ≠ 0 ∧ canonStartsWith canon q (c :: rest) = true) := by
          rintro ⟨-, hl⟩
          rw [← hdrop, ← occursAtB_eq_canonStarts canon content q i hi] at hl
          exact h2 hl
        rw [if_neg hcond]
        have hrest : content.drop (i + 1) = rest := by
          rw [← List.tail_drop, hdrop, List.tail_cons]
        rw [ih (i + 1) (by omega), hrest]
        rfl

theorem scanFromAux_length_eq_count (canon : Char → Char) (content q : List Char)
    (hq : q.length ≠ 0) :
    ∀ fuel i, i ≤ content.length →
      (scanFromAux canon content q fuel i).length =
        specCountGo canon q fuel (content.drop i) := by
  intro fuel
  induction fuel with
  | zero => intro i _; rfl
  | succ fuel ih =>
    intro i hi
    simp only [scanFromAux]
    split_ifs with h1 h2
    · rw [specCountGo_short canon q (fuel + 1) (content.drop i)
        (by rw [List.length_drop]; omega)]
      rfl
    · have hilt : i < content.length := by omega
      cases hdrop : content.drop i with
      | nil =>
        have := congrArg List.length hdrop
        simp only [List.length_drop, List.length_nil] at this
        omega
      | cons c rest =>
        simp only [specCountGo]
        have hcond : q.length ≠ 0 ∧ canonStartsWith canon q (c :: rest) = true := by
          refine ⟨hq, ?_⟩
          rw [← hdrop, ← occursAtB_eq_canonStarts canon content q i hi]
          exact h2
        rw [if_pos hcond, List.length_cons, ← hdrop, List.drop_drop,
          ih (i + q.length) (by omega)]
        omega
    · have hilt : i < content.length := by omega
      cases hdrop : content.drop i with
      | nil =>
        have := congrArg List.length hdrop
        simp only [List.length_drop, List.length_nil] at this
        omega
      | cons c rest =>
        simp only [specCountGo]
        have hcond : ¬(q.length ≠ 0 ∧ canonStartsWith canon q (c :: rest) = true) := by
          rintro ⟨-, hl⟩
          rw [← hdrop, ← occursAtB_eq_canonStarts canon content q i hi] at hl
          exact h2 hl
        rw [if_neg hcond]
        have hrest : content.drop (i + 1) = rest := by
          rw [← List.tail_drop, hdrop, List.tail_cons]
        rw [ih (i + 1) (by omega), hrest]

/-- Counterexample to claim C5 as stated: replacing the query `a` by the
replacement string `$$` in the content `a` (all ASCII, so `asciiCanon`
is the engine's canonicalization here).  The handler produces `$`
(count 1), while replacing the occurrence by the replacement string
itself would produce `$$`. -/
theorem replaceAll_counterexample :
    replaceAllModel asciiCanon ['a'] ['a'] ['$', '$'] = some (['$'], 1) ∧
    specReplaceAll asciiCanon ['a'] ['a'] ['$', '$'] = ['$', '$'] ∧
    (['$'] : List Char) ≠ ['$', '$'] := by
  refine ⟨by decide, by decide, by decide⟩

/-- Claim C5 as amended: for a replacement string free of dollar signs
(so that no JavaScript replacement pattern applies) and for every
character canonicalization (in particular the regex engine's),
replace-all with a non-empty trimmed query and at least one match
produces exactly the literal spec replacement, and the reported count is
the number of non-overlapping case-insensitive occurrences. -/
theorem replaceAll_spec (canon : Char → Char) (content rawQuery repl : List Char)
    (hq : jsTrim rawQuery ≠ []) (hd : '$' ∉ repl)
    (hn : scanFrom canon content (jsTrim rawQuery) ≠ []) :
    replaceAllModel canon content rawQuery repl =
      some (specReplaceAll canon content (jsTrim rawQuery) repl,
        (scanFrom canon content (jsTrim rawQuery)).length) ∧
    (scanFrom canon content (jsTrim rawQuery)).length =
      specCountGo canon (jsTrim rawQuery) (content.length + 1) content := by
  have hql : (jsTrim rawQuery).length ≠ 0 := by
    intro h
    exact hq (List.length_eq_zero.mp h)
  have hcount := scanFromAux_length_eq_count canon content (jsTrim rawQuery) hql
    (content.length + 1) 0 (Nat.zero_le _)
  rw [List.drop_zero] at hcount
  constructor
  · unfold replaceAllModel
    have hn0 : (scanFrom canon content (jsTrim rawQuery)).length ≠ 0 := by
      intro h
      exact hn (List.length_eq_zero.mp h)
    simp only [hq, if_false, hn0, if_false]
    have hrepl := replaceFromAux_eq_spec canon content (jsTrim rawQuery) repl hql hd
      (content.length + 1) 0 (Nat.zero_le _)
    rw [List.drop_zero] at hrepl
    rw [hrepl]
    rfl
  · exact hcount

/-- Witness for the amended claim C5: replacing the query `a` by `x` in
the content `abA` yields `xbx` with count 2; on this all-ASCII input
`asciiCanon` is the engine's canonicalization. -/
theorem replaceAll_spec_witness :
    replaceAllModel asciiCanon ['a', 'b', 'A'] ['a'] ['x'] =
      some (['x', 'b', 'x'], 2) := by
  have h := (replaceAll_spec asciiCanon ['a', 'b', 'A'] ['a'] ['x']
    (by decide) (by decide) (by decide)).1
  rw [h]
  decide

/-! ## Local storage persistence (`queueSaveData`, `flushSaveData`,
`saveToLocalStorage`, `loadFromLocalStorage`, script.js:115-224)

`saveToLocalStorage` queues `editorContent` and `editorLastSave` into
the buffer object `pendingSaveData`; `flushSaveData` writes every
buffered entry to `localStorage` in insertion order and clears the
buffer.  Both the buffer object and the store are modelled as
association lists with unique keys, updated by the JavaScript object
assignment rule: an existing key keeps its position and gets the new
value, a new key is appended. -/

abbrev Store := List (String × List Char)

/-- JavaScript object / `localStorage` key assignment: replace the
existing entry in place, or append a new one. -/
def jsUpdate : Store → String → List Char → Store
  | [], k, v => [(k, v)]
  | p :: rest, k, v =>
    if p.1 == k then (k, v) :: rest else p :: jsUpdate rest k v

/-- `localStorage.getItem`: the value stored under `k`, if any. -/
def getItem : Store → String → Option (List Char)
  | [], _ => none
  | p :: rest, k => if p.1 == k then some p.2 else getItem rest k

def setItem (store : Store) (k : String) (v : List Char) : Store :=
  jsUpdate store k v

structure StorageState where
  pendingSaveData : Store
  store : Store
deriving DecidableEq

/-- Model of `queueSaveData` (the timer restart is part of the debounce
model above). -/
def queueSaveData (st : StorageState) (k : String) (v : List Char) : StorageState :=
  { st with pendingSaveData := jsUpdate st.pendingSaveData k v }

/-- Model of `saveToLocalStorage`: queue the editor content and the
save timestamp. -/
def saveToLocalStorage (st : StorageState) (editorValue now : List Char) : StorageState :=
  queueSaveData (queueSaveData st "editorContent" editorValue) "editorLastSave" now

/-- Model of `flushSaveData`: write all buffered entries in order and
clear the buffer; do nothing on an empty buffer. -/
def flushSaveData (st : StorageState) : StorageState :=
  if st.pendingSaveData = [] then st
  else
    { pendingSaveData := [],
      store := st.pendingSaveData.foldl (fun s p => setItem s p.1 p.2) st.store }

/-- Model of `loadFromLocalStorage`: the restored `editor.value` and the
possibly updated store (`hasVisited` is written on first visit); an
absent or empty stored value is falsy in the JavaScript condition. -/
def loadFromLocalStorage (store : Store) (placeholder : List Char) :
    List Char × Store :=
  let savedContent := getItem store "editorContent"
  let visited := getItem store "hasVisited"
  match savedContent with
  | some s =>
    if s ≠ [] ∧ jsTrim s ≠ [] then (s, store)
    else if visited = none ∨ visited = some [] then
      (placeholder, setItem store "hasVisited" ['t', 'r', 'u', 'e'])
    else ([], store)
  | none =>
    if visited = none ∨ visited = some [] then
      (placeholder, setItem store "hasVisited" ['t', 'r', 'u', 'e'])
    else ([], store)

theorem getItem_jsUpdate_self (k : String) (v : List Char) :
    ∀ l : Store, getItem (jsUpdate l k v) k = some v := by
  intro l
  induction l with
  | nil => simp [jsUpdate, getItem]
  | cons p rest ih =>
    simp only [jsUpdate]
    by_cases hb : (p.1 == k) = true
    · rw [if_pos hb]
      simp only [getItem]
      rw [if_pos (show (k == k) = true by simp)]
    · rw [if_neg hb]
      simp only [getItem]
      rw [if_neg hb]
      exact ih

theorem getItem_jsUpdate_other (k k2 : String) (v : List Char) (hk : k2 ≠ k) :
    ∀ l : Store, getItem (jsUpdate l k v) k2 = getItem l k2 := by
  have hkk2 : (k == k2) = false := by
    simp only [beq_eq_false_iff_ne, ne_eq]
    exact fun h => hk h.symm
  intro l
  induction l with
  | nil =>
    simp only [jsUpdate, getItem]
    rw [if_neg (by simp [hkk2])]
  | cons p rest ih =>
    simp only [jsUpdate]
    by_cases hb : (p.1 == k) = true
    · rw [if_pos hb]
      have hpk : p.1 = k := by simpa using hb
      simp only [getItem]
      rw [if_neg (by simp [hkk2]), if_neg (by simp [hpk, hkk2])]
    · rw [if_neg hb]
      simp only [getItem]
      by_cases hb2 : (p.1 == k2) = true
      · rw [if_pos hb2, if_pos hb2]
      · rw [if_neg hb2, if_neg hb2]
        exact ih

theorem mem_jsUpdate_self (k : String) (v : List Char) :
    ∀ l : Store, (k, v) ∈ jsUpdate l k v := by
  intro l
  induction l with
  | nil => simp [jsUpdate]
  | cons p rest ih =>
    simp only [jsUpdate]
    by_cases hb : (p.1 == k) = true
    · rw [if_pos hb]
      exact List.mem_cons_self _ _
    · rw [if_neg hb]
      exact List.mem_cons_of_mem p ih

theorem mem_jsUpdate_other (k k2 : String) (v v2 : List Char) (hk : k2 ≠ k) :
    ∀ l : Store, (k2, v2) ∈ l → (k2, v2) ∈ jsUpdate l k v := by
  intro l
  induction l with
  | nil => intro h; simp at h
  | cons p rest ih =>
    intro h
    simp only [jsUpdate]
    by_cases hb : (p.1 == k) = true
    · rw [if_pos hb]
      have hpk : p.1 = k := by simpa using hb
      rcases List.mem_cons.mp h with rfl | h2
      · exact absurd hpk hk
      · exact List.mem_cons_of_mem _ h2
    · rw [if_neg hb]
      rcases List.mem_cons.mp h with rfl | h2
      · exact List.mem_cons_self _ _
      · exact List.mem_cons_of_mem p (ih h2)

theorem keys_jsUpdate_subset (k : String) (v : List Char) :
    ∀ (l : Store) (x : String), x ∈ (jsUpdate l k v).map Prod.fst →
      x ∈ l.map Prod.fst ∨ x = k := by
  intro l
  induction l with
  | nil =>
    intro x hx
    simp [jsUpdate] at hx
    exact Or.inr hx
  | cons p rest ih =>
    intro x hx
    simp only [jsUpdate] at hx
    by_cases hb : (p.1 == k) = true
    · rw [if_pos hb] at hx
      have hpk : p.1 = k := by simpa using hb
      simp only [List.map_cons, List.mem_cons] at hx ⊢
      rcases hx with rfl | hx2
      · exact Or.inr rfl
      · exact Or.inl (Or.inr hx2)
    · rw [if_neg hb] at hx
      simp only [List.map_cons, List.mem_cons] at hx ⊢
      rcases hx with rfl | hx2
      · exact Or.inl (Or.inl rfl)
      · rcases ih x hx2 with h3 | h3
        · exact Or.inl (Or.inr h3)
        · exact Or.inr h3

theorem nodup_keys_jsUpdate (k : String) (v : List Char) :
    ∀ l : Store, (l.map Prod.fst).Nodup → ((jsUpdate l k v).map Prod.fst).Nodup := by
  intro l
  induction l with
  | nil => intro _; simp [jsUpdate]
  | cons p rest ih =>
    intro h
    simp only [List.map_cons, List.nodup_cons] at h
    simp only [jsUpdate]
    by_cases hb : (p.1 == k) = true
    · rw [if_pos hb]
      have hpk : p.1 = k := by simpa using hb
      simp only [List.map_cons, List.nodup_cons]
      rw [← hpk]
      exact h
    · rw [if_neg hb]
      simp only [List.map_cons, List.nodup_cons]
      refine ⟨?_, ih h.2⟩
      intro hmem
      rcases keys_jsUpdate_subset k v rest p.1 hmem with h3 | h3
      · exact h.1 h3
      · rw [h3] at hb
        simp at hb

theorem jsUpdate_ne_nil (k : String) (v : List Char) (l : Store) :
    jsUpdate l k v ≠ [] := by
  cases l with
  | nil => simp [jsUpdate]
  | cons p rest =>
    simp only [jsUpdate]
    by_cases hb : (p.1 == k) = true
    · rw [if_pos hb]
      exact List.cons_ne_nil _ _
    · rw [if_neg hb]
      exact List.cons_ne_nil _ _

theorem getItem_flush_absent (k : String) :
    ∀ (pend : Store) (store : Store), (∀ p ∈ pend, p.1 ≠ k) →
      getItem (pend.foldl (fun s p => setItem s p.1 p.2) store) k = getItem store k := by
  intro pend
  induction pend with
  | nil => intro store _; rfl
  | cons q rest ih =>
    intro store h
    rw [List.foldl_cons, ih (setItem store q.1 q.2)
      (fun p hp => h p (List.mem_cons_of_mem q hp))]
    exact getItem_jsUpdate_other q.1 k q.2 (fun he => h q (List.mem_cons_self q rest) he.symm) store

theorem getItem_flush_mem (k : String) (v : List Char) :
    ∀ (pend : Store) (store : Store), (pend.map Prod.fst).Nodup → (k, v) ∈ pend →
      getItem (pend.foldl (fun s p => setItem s p.1 p.2) store) k = some v := by
  intro pend
  induction pend with
  | nil => intro store _ h; simp at h
  | cons q rest ih =>
    intro store hnd hmem
    simp only [List.map_cons, List.nodup_cons] at hnd
    rw [List.foldl_cons]
    rcases List.mem_cons.mp hmem with rfl | h2
    · have habs : ∀ p ∈ rest, p.1 ≠ (k, v).1 := by
        intro p hp he
        exact hnd.1 (he ▸ List.mem_map_of_mem Prod.fst hp)
      rw [getItem_flush_absent (k, v).1 rest _ habs]
      exact getItem_jsUpdate_self (k, v).1 (k, v).2 store
    · exact ih (setItem store q.1 q.2) hnd.2 h2

/-- Claim C1: saving editor content that has at least one non-whitespace
character and flushing stores exactly that string under the key
`editorContent`, and a subsequent load restores `editor.value` to
exactly that string. -/
theorem storage_roundtrip (editorValue now placeholder : List Char)
    (st : StorageState)
    (hnd : (st.pendingSaveData.map Prod.fst).Nodup)
    (hc : ∃ c ∈ editorValue, isJsSpace c = false) :
    getItem (flushSaveData (saveToLocalStorage st editorValue now)).store
        "editorContent" = some editorValue ∧
    (loadFromLocalStorage
        (flushSaveData (saveToLocalStorage st editorValue now)).store
        placeholder).1 = editorValue := by
  have hne : ("editorLastSave" : String) ≠ "editorContent" := by decide
  set pend2 : Store :=
    jsUpdate (jsUpdate st.pendingSaveData "editorContent" editorValue)
      "editorLastSave" now with hpend2
  have hsave : saveToLocalStorage st editorValue now =
      { st with pendingSaveData := pend2 } := rfl
  have hpne : pend2 ≠ [] := jsUpdate_ne_nil _ _ _
  have hflush : (flushSaveData (saveToLocalStorage st editorValue now)).store =
      pend2.foldl (fun s p => setItem s p.1 p.2) st.store := by
    rw [hsave]
    unfold flushSaveData
    rw [if_neg hpne]
  have hmem : ("editorContent", editorValue) ∈ pend2 := by
    rw [hpend2]
    exact mem_jsUpdate_other "editorLastSave" "editorContent" now editorValue
      (fun h => hne h.symm) _
      (mem_jsUpdate_self "editorContent" editorValue st.pendingSaveData)
  have hnd2 : (pend2.map Prod.fst).Nodup := by
    rw [hpend2]
    exact nodup_keys_jsUpdate _ _ _ (nodup_keys_jsUpdate _ _ _ hnd)
  have hget : getItem (flushSaveData (saveToLocalStorage st editorValue now)).store
      "editorContent" = some editorValue := by
    rw [hflush]
    exact getItem_flush_mem "editorContent" editorValue pend2 st.store hnd2 hmem
  refine ⟨hget, ?_⟩
  unfold loadFromLocalStorage
  rw [hget]
  have hemp : editorValue ≠ [] := by
    obtain ⟨c, hcm, -⟩ := hc
    exact List.ne_nil_of_mem hcm
  have htrim : jsTrim editorValue ≠ [] := jsTrim_ne_nil hc
  simp only [hemp, htrim, ne_eq, not_false_iff, and_self, if_true]

/-- Witness for claim C1: saving the concrete editor content `hi` from
the empty storage state and loading it back. -/
theorem storage_roundtrip_witness :
    getItem (flushSaveData (saveToLocalStorage ⟨[], []⟩ ['h', 'i'] ['1'])).store
        "editorContent" = some ['h', 'i'] ∧
      (loadFromLocalStorage
          (flushSaveData (saveToLocalStorage ⟨[], []⟩ ['h', 'i'] ['1'])).store
          ['p']).1 = ['h', 'i'] :=
  storage_roundtrip ['h', 'i'] ['1'] ['p'] ⟨[], []⟩ (by decide) ⟨'h', by decide, by decide⟩

/-! ## Password generator (`generatePassword`, script.js:2775-2799)

`generatePassword` concatenates the character sets of the checked
boxes, aborts with a fixed error message when nothing is checked, and
otherwise appends `chars.charAt(Math.floor(Math.random() * chars.length))`
for each of the `length` rounds.  `Math.random()` returns a value in
`[0, 1)`, so each drawn index is below `chars.length`; the draws are
modelled by a function from the round number to the drawn index. -/

def upperChars : List Char := "ABCDEFGHIJKLMNOPQRSTUVWXYZ".toList

def lowerChars : List Char := "abcdefghijklmnopqrstuvwxyz".toList

def numberChars : List Char := "0123456789".toList

def symbolChars : List Char := "!@#$%^&*()_+-=[]\x7b\x7d|;:,.<>?".toList

/-- `String.prototype.charAt`: a one-character string, or the empty
string out of range. -/
def charAt (s : List Char) (i : Nat) : List Char :=
  (s.drop i).take 1

/-- The `chars` pool built from the checked boxes, in source order. -/
def passwordCharset (up low num sym : Bool) : List Char :=
  (if up then upperChars else []) ++ (if low then lowerChars else []) ++
    (if num then numberChars else []) ++ (if sym then symbolChars else [])

/-- Model of `generatePassword`; `none` stands for the fixed
no-type-selected error message written to the output field. -/
def generatePassword (len : Nat) (up low num sym : Bool) (rand : Nat → Nat) :
    Option (List Char) :=
  let chars := passwordCharset up low num sym
  if chars = [] then none
  else some ((List.range len).foldl (fun acc i => acc ++ charAt chars (rand i)) [])

theorem charAt_length {s : List Char} {i : Nat} (h : i < s.length) :
    (charAt s i).length = 1 := by
  unfold charAt
  rw [List.length_take, List.length_drop]
  omega

theorem charAt_subset (s : List Char) (i : Nat) : ∀ c ∈ charAt s i, c ∈ s := by
  intro c hc
  unfold charAt at hc
  exact List.mem_of_mem_drop (List.mem_of_mem_take hc)

theorem passwordFold_length (chars : List Char) (rand : Nat → Nat)
    (h : ∀ i, rand i < chars.length) :
    ∀ (ixs : List Nat) (acc : List Char),
      (ixs.foldl (fun acc i => acc ++ charAt chars (rand i)) acc).length =
        acc.length + ixs.length := by
  intro ixs
  induction ixs with
  | nil => intro acc; simp
  | cons j rest ih =>
    intro acc
    rw [List.foldl_cons, ih, List.length_append, charAt_length (h j),
      List.length_cons]
    omega

theorem passwordFold_mem (chars : List Char) (rand : Nat → Nat) :
    ∀ (ixs : List Nat) (acc : List Char) (c : Char),
      c ∈ ixs.foldl (fun acc i => acc ++ charAt chars (rand i)) acc →
      c ∈ acc ∨ c ∈ chars := by
  intro ixs
  induction ixs with
  | nil => intro acc c hc; exact Or.inl hc
  | cons j rest ih =>
    intro acc c hc
    rw [List.foldl_cons] at hc
    rcases ih (acc ++ charAt chars (rand j)) c hc with h2 | h2
    · rcases List.mem_append.mp h2 with h3 | h3
      · exact Or.inl h3
      · exact Or.inr (charAt_subset chars (rand j) c h3)
    · exact Or.inr h2

theorem passwordCharset_empty_iff (up low num sym : Bool) :
    passwordCharset up low num sym = [] ↔
      up = false ∧ low = false ∧ num = false ∧ sym = false := by
  cases up <;> cases low <;> cases num <;> cases sym <;> decide

theorem mem_passwordCharset (up low num sym : Bool) (c : Char) :
    c ∈ passwordCharset up low num sym ↔
      (up = true ∧ c ∈ upperChars) ∨ (low = true ∧ c ∈ lowerChars) ∨
        (num = true ∧ c ∈ numberChars) ∨ (sym = true ∧ c ∈ symbolChars) := by
  unfold passwordCharset
  cases up <;> cases low <;> cases num <;> cases sym <;>
    simp [List.mem_append, or_assoc]

/-- Claim C10: with no character type checked the generator produces the
fixed error message; with at least one type checked and index draws
below the pool size it produces a password of exactly the requested
length whose characters all come from the union of the selected
character sets. -/
theorem generatePassword_spec (len : Nat) (up low num sym : Bool)
    (rand : Nat → Nat) :
    ((up || low || num || sym) = false →
      generatePassword len up low num sym rand = none) ∧
    ((up || low || num || sym) = true →
      (∀ i, rand i < (passwordCharset up low num sym).length) →
      ∃ pwd, generatePassword len up low num sym rand = some pwd ∧
        pwd.length = len ∧
        ∀ c ∈ pwd, (up = true ∧ c ∈ upperChars) ∨ (low = true ∧ c ∈ lowerChars) ∨
          (num = true ∧ c ∈ numberChars) ∨ (sym = true ∧ c ∈ symbolChars)) := by
  constructor
  · intro h
    have hz : passwordCharset up low num sym = [] := by
      rw [passwordCharset_empty_iff]
      revert h
      cases up <;> cases low <;> cases num <;> cases sym <;> decide
    unfold generatePassword
    rw [if_pos hz]
  · intro h hrand
    have hz : passwordCharset up low num sym ≠ [] := by
      rw [Ne, passwordCharset_empty_iff]
      revert h
      cases up <;> cases low <;> cases num <;> cases sym <;> decide
    refine ⟨(List.range len).foldl
      (fun acc i => acc ++ charAt (passwordCharset up low num sym) (rand i)) [], ?_, ?_, ?_⟩
    · unfold generatePassword
      rw [if_neg hz]
    · rw [passwordFold_length (passwordCharset up low num sym) rand hrand
        (List.range len) [], List.length_range]
      simp
    · intro c hc
      rcases passwordFold_mem (passwordCharset up low num sym) rand
        (List.range len) [] c hc with h2 | h2
      · simp at h2
      · exact (mem_passwordCharset up low num sym c).mp h2

/-- Witness for claim C10: two uppercase-only draws of index 0, and the
error case with nothing checked. -/
theorem generatePassword_spec_witness :
    (∃ pwd, generatePassword 2 true false false false (fun _ => 0) = some pwd ∧
      pwd.length = 2 ∧
      ∀ c ∈ pwd, (true = true ∧ c ∈ upperChars) ∨ (false = true ∧ c ∈ lowerChars) ∨
        (false = true ∧ c ∈ numberChars) ∨ (false = true ∧ c ∈ symbolChars)) ∧
    generatePassword 2 false false false false (fun _ => 0) = none :=
  ⟨(generatePassword_spec 2 true false false false (fun _ => 0)).2 rfl
      (fun _ => by decide),
    (generatePassword_spec 2 false false false false (fun _ => 0)).1 rfl⟩
